import Mathlib

/-!
Verification of the streaming-statistics core (sliding-window median `SMM`
and incremental linear regression `LinReg`).

Finite floating-point samples are modelled as exact rationals `ℚ`; the
non-finite values (NaN, ±∞) that only ever flow through validity checks are
modelled by the tagged type `FP`.  Panics (assertion failures and
out-of-bounds slice accesses) are modelled by `Option`: a `none` result of
`SMM.next` is a panic of the corresponding Rust call.
-/

namespace Yata

/-- Modelled from the spec: the crate error taxonomy (only the two kinds the
two trackers use appear in the sources): `WrongMethodParameters` is the
"InvalidParameters" kind, `InvalidCandles` the "InvalidInput" kind. -/
inductive Error where
  | WrongMethodParameters
  | InvalidCandles
deriving DecidableEq

/-- Modelled from the spec: a floating-point sample (`ValueType`).  A finite
sample is an exact rational; NaN and the two infinities are tags.  Arithmetic
is only ever performed on finite samples in this development. -/
inductive FP where
  | finite (q : ℚ)
  | nan
  | posInf
  | negInf
deriving DecidableEq

/-- `f64::is_finite`. -/
def FP.is_finite : FP → Bool
  | .finite _ => true
  | _ => false

/-- The rational payload of a finite sample (0 for non-finite values, which
are only ever stored after a finiteness check has passed). -/
def FP.toRat : FP → ℚ
  | .finite q => q
  | _ => 0

/-- Modelled from the spec: the sliding window `Window` is not part of the
given sources; per the spec it is a fixed-capacity circular buffer holding
the last N samples, pre-filled at construction.  `buf` lists the contents
oldest first. -/
structure Window where
  buf : List ℚ
deriving DecidableEq, Inhabited

/-- Modelled from the spec: `Window::new(length, value)` fills all slots with
`value`. -/
def Window.new (length : ℕ) (value : ℚ) : Window :=
  ⟨List.replicate length value⟩

/-- Modelled from the spec: `Window::push` overwrites the oldest slot with the
new sample and returns the evicted sample. -/
def Window.push (w : Window) (value : ℚ) : ℚ × Window :=
  (w.buf.headI, ⟨w.buf.tail ++ [value]⟩)

/-- `Window.steps`: the successive window states produced by a sequence of
pushes (ghost observer used to state the correctness theorems). -/
def Window.steps (w : Window) : List ℚ → List Window
  | [] => []
  | v :: vs => (w.push v).2 :: (w.push v).2.steps vs

/-! ### SMM (simple moving median), from `src/src/methods/smm.rs` -/

/-- `find_index` from smm.rs: binary search for the position of `value`
(which the caller guarantees to be present) in the sorted slice.  Indexing an
empty slice in the source (`slice[half]` with `half = 0`) panics, which is
the `none` result here. -/
def find_index (value : ℚ) (slice : List ℚ) (padding : ℕ) : Option ℕ :=
  if slice.length = 1 then
    some padding
  else if h2 : slice.isEmpty then
    none
  else
    let half := slice.length / 2
    let m := slice.getD half 0
    if value = m then
      some (padding + half)
    else if value > m then
      find_index value (slice.drop (half + 1)) (padding + half + 1)
    else
      find_index value (slice.take half) padding
termination_by slice.length
decreasing_by
  · rw [List.length_drop]
    rw [List.isEmpty_iff_length_eq_zero] at h2
    omega
  · refine lt_of_le_of_lt (List.length_take_le _ _) ?_
    rw [List.isEmpty_iff_length_eq_zero] at h2
    exact Nat.div_lt_self (Nat.pos_of_ne_zero h2) one_lt_two

/-- `find_insert_index` from smm.rs: binary search for an insertion position
of `value` in the sorted slice.  Never panics (the empty slice is handled). -/
def find_insert_index (value : ℚ) (slice : List ℚ) (padding : ℕ) : ℕ :=
  if h2 : slice.isEmpty then
    padding
  else
    let half := slice.length / 2
    let m := slice.getD half 0
    if value = m then
      padding + half
    else if value > m then
      find_insert_index value (slice.drop (half + 1)) (padding + half + 1)
    else
      find_insert_index value (slice.take half) padding
termination_by slice.length
decreasing_by
  · rw [List.length_drop]
    rw [List.isEmpty_iff_length_eq_zero] at h2
    omega
  · refine lt_of_le_of_lt (List.length_take_le _ _) ?_
    rw [List.isEmpty_iff_length_eq_zero] at h2
    exact Nat.div_lt_self (Nat.pos_of_ne_zero h2) one_lt_two

/-- The `SMM` struct from smm.rs. -/
structure SMM where
  half : ℕ
  half_m1 : ℕ
  window : Window
  slice : List ℚ
deriving DecidableEq, Inhabited

/-- `SMM::new` from smm.rs: rejects a non-finite first value with
`InvalidCandles`, then a zero length with `WrongMethodParameters`. -/
def SMM.new (length : ℕ) (value : FP) : Except Error SMM :=
  if !value.is_finite then
    Except.error Error.InvalidCandles
  else
    match length with
    | 0 => Except.error Error.WrongMethodParameters
    | l =>
      let half := l / 2
      let is_even := l % 2 == 0
      Except.ok
        { half := half
          half_m1 := half - (if is_even then 1 else 0)
          window := Window.new l value.toRat
          slice := List.replicate l value.toRat }

/-- The effect of `slice.copy_within((old_index + 1)..=index, old_index)`:
positions `old_index .. index-1` receive the old values at
`old_index+1 .. index`; everything else is unchanged. -/
def copyWithinLeft (l : List ℚ) (old_index index : ℕ) : List ℚ :=
  l.take old_index ++ (l.drop (old_index + 1)).take (index - old_index) ++ l.drop index

/-- The effect of `slice.copy_within(index..old_index, index + 1)`:
positions `index+1 .. old_index` receive the old values at
`index .. old_index-1`; everything else is unchanged. -/
def copyWithinRight (l : List ℚ) (index old_index : ℕ) : List ℚ :=
  l.take (index + 1) ++ (l.drop index).take (old_index - index) ++ l.drop (old_index + 1)

/-- `SMM::next` from smm.rs.  The leading finiteness assertion and every
slice access that can go out of bounds in the source are modelled as `none`
(a panic). -/
def SMM.next (s : SMM) (value : FP) : Option (ℚ × SMM) :=
  if !value.is_finite then
    none
  else
    let v := value.toRat
    let pushed := s.window.push v
    let old_value := pushed.1
    let window := pushed.2
    match find_index old_value s.slice 0 with
    | none => none
    | some old_index =>
      let index0 := find_insert_index v s.slice 0
      -- if the old index is before current, then offset current back by 1
      let index := index0 - (if old_index < index0 then 1 else 0)
      let shifted : Option (List ℚ) :=
        if index > old_index then
          if index < s.slice.length then some (copyWithinLeft s.slice old_index index)
          else none
        else if index < old_index then
          if old_index < s.slice.length then some (copyWithinRight s.slice index old_index)
          else none
        else some s.slice
      match shifted with
      | none => none
      | some slice1 =>
        if index < slice1.length then
          let slice2 := slice1.set index v
          match slice2.get? s.half, slice2.get? s.half_m1 with
          | some a, some b => some ((a + b) * (1 / 2), { s with window := window, slice := slice2 })
          | _, _ => none
        else none

/-- Outputs of a run of `SMM::next` over a list of finite inputs; `none` if
any call panics. -/
def SMM.steps (s : SMM) : List ℚ → Option (List ℚ)
  | [] => some []
  | v :: vs =>
    match s.next (FP.finite v) with
    | none => none
    | some (out, s') => (s'.steps vs).map (out :: ·)

/-- Final state of a run of `SMM::next` over a list of finite inputs. -/
def SMM.runState (s : SMM) : List ℚ → Option SMM
  | [] => some s
  | v :: vs =>
    match s.next (FP.finite v) with
    | none => none
    | some (_, s') => s'.runState vs

/-! ### LinReg, from `src/src/methods/lin_reg.rs` -/

/-- The `LinReg` struct from lin_reg.rs. -/
structure LinReg where
  s_xy : ℚ
  s_y : ℚ
  s_x : ℚ
  float_length : ℚ
  length_invert : ℚ
  divider : ℚ
  window : Window
deriving DecidableEq, Inhabited

/-- `LinReg::tan` from lin_reg.rs (`mul_add` is exact over ℚ). -/
def LinReg.tan (t : LinReg) : ℚ :=
  (t.s_xy * t.float_length + t.s_x * t.s_y) * t.divider

/-- `LinReg::b` from lin_reg.rs. -/
def LinReg.b (t : LinReg) : ℚ :=
  (t.s_x * t.tan + t.s_y) * t.length_invert

/-- `LinReg::new` from lin_reg.rs.  `s_x` and `s_x2` are computed in integer
arithmetic with truncating division exactly as in the source (both divisions
are exact, as proved below). -/
def LinReg.new (length : ℕ) (value : FP) : Except Error LinReg :=
  match length with
  | 0 => Except.error Error.WrongMethodParameters
  | 1 => Except.error Error.WrongMethodParameters
  | _ =>
    let l64 := length
    let float_length : ℚ := (length : ℚ)
    let length_invert := -(float_length⁻¹)
    let n_1 := l64 - 1
    let s_x := l64 * n_1 / 2
    let s_x2 := s_x * (2 * n_1 + 1) / 3
    let divider := ((l64 * s_x2 - s_x * s_x : ℕ) : ℚ)⁻¹
    let s_xq : ℚ := -(s_x : ℚ)
    Except.ok
      { s_xy := value.toRat * s_xq
        s_y := -value.toRat * float_length
        s_x := s_xq
        float_length := float_length
        length_invert := length_invert
        divider := divider
        window := Window.new length value.toRat }

/-- `LinReg::next` from lin_reg.rs. -/
def LinReg.next (t : LinReg) (value : ℚ) : ℚ × LinReg :=
  let pushed := t.window.push value
  let past_value := pushed.1
  let window := pushed.2
  let s_xy := t.s_xy + (past_value * t.float_length + t.s_y)
  let s_y := t.s_y + (past_value - value)
  let t' := { t with s_xy := s_xy, s_y := s_y, window := window }
  (t'.b, t')

/-- Outputs of a run of `LinReg::next` over a list of inputs. -/
def LinReg.steps (t : LinReg) : List ℚ → List ℚ
  | [] => []
  | v :: vs => (t.next v).1 :: (t.next v).2.steps vs

/-- Final state of a run of `LinReg::next` over a list of inputs. -/
def LinReg.runState (t : LinReg) : List ℚ → LinReg
  | [] => t
  | v :: vs => (t.next v).2.runState vs

/-! ### Spec-side (direct recomputation) definitions -/

/-- Sum of `rank · value` over a window listed oldest first, where the newest
sample has rank 0 and the oldest rank N−1 (the head of the list has rank one
less than the length of its tail). -/
def rankSum : List ℚ → ℚ
  | [] => 0
  | y :: rest => (rest.length : ℚ) * y + rankSum rest

/-- Modelled from the spec: the least-squares intercept obtained by direct
recomputation over the current window (oldest first), with rank x = 0 at the
newest sample: a = (N·Sxy − Sx·Sy) / (N·Sx2 − Sx²), b = (Sy − a·Sx) / N. -/
def directIntercept (l : List ℚ) : ℚ :=
  let n : ℚ := (l.length : ℚ)
  let sx : ℚ := n * (n - 1) / 2
  let sx2 : ℚ := n * (n - 1) * (2 * n - 1) / 6
  let sy : ℚ := l.sum
  let sxy : ℚ := rankSum l
  let a := (n * sxy - sx * sy) / (n * sx2 - sx * sx)
  (sy - a * sx) / n

/-- Modelled from the spec: the median of a list — sort non-decreasing, take
the single middle element when the length is odd, the average of the two
middle elements when it is even. -/
def listMedian (l : List ℚ) : ℚ :=
  let s := List.insertionSort (· ≤ ·) l
  if l.length % 2 = 1 then s.getD (l.length / 2) 0
  else (s.getD (l.length / 2) 0 + s.getD (l.length / 2 - 1) 0) / 2

/-! ### Correctness of the binary searches -/

lemma sorted_mem_take_le {l : List ℚ} (hs : l.Sorted (· ≤ ·)) {j k : ℕ} (hjk : j ≤ k + 1)
    (hk : k < l.length) : ∀ x ∈ l.take j, x ≤ l[k] := by
  intro x hx
  obtain ⟨i, hi, rfl⟩ := List.mem_take_iff_getElem.mp hx
  have hi' : i < l.length := lt_of_lt_of_le hi (min_le_right _ _)
  have hik : i ≤ k := by
    have := lt_of_lt_of_le hi (min_le_left _ _); omega
  have := hs.rel_get_of_le (a := ⟨i, hi'⟩) (b := ⟨k, hk⟩) hik
  simpa using this

lemma sorted_mem_drop_ge {l : List ℚ} (hs : l.Sorted (· ≤ ·)) {j k : ℕ} (hkj : k ≤ j)
    (hk : k < l.length) : ∀ x ∈ l.drop j, l[k] ≤ x := by
  intro x hx
  obtain ⟨t, ht, hx⟩ := List.getElem_of_mem hx
  rw [List.getElem_drop] at hx
  subst hx
  have ht' : j + t < l.length := by
    rw [List.length_drop] at ht; omega
  have := hs.rel_get_of_le (a := ⟨k, hk⟩) (b := ⟨j + t, ht'⟩) (by simp; omega)
  simpa using this

lemma find_index_spec (value : ℚ) :
    ∀ (slice : List ℚ) (padding : ℕ), slice.Sorted (· ≤ ·) → value ∈ slice →
    ∃ i, ∃ h : i < slice.length,
      find_index value slice padding = some (padding + i) ∧ slice[i] = value := by
  apply find_index.induct value
    (motive := fun slice padding => slice.Sorted (· ≤ ·) → value ∈ slice →
      ∃ i, ∃ h : i < slice.length,
        find_index value slice padding = some (padding + i) ∧ slice[i] = value)
  · -- length = 1
    intro slice padding h1 _ hmem
    obtain ⟨a, rfl⟩ := List.length_eq_one.mp h1
    have : value = a := by simpa using hmem
    subst this
    exact ⟨0, by simp, by rw [find_index]; simp, by simp⟩
  · -- empty
    intro slice padding _ h2 _ hmem
    rw [List.isEmpty_iff] at h2
    subst h2
    simp at hmem
  · -- value = m
    intro slice padding h1 h2 half m hvm hs hmem
    have h2' := h2
    rw [List.isEmpty_iff_length_eq_zero] at h2
    have hh : half < slice.length := Nat.div_lt_self (Nat.pos_of_ne_zero h2) one_lt_two
    refine ⟨half, hh, ?_, ?_⟩
    · rw [find_index]
      rw [if_neg h1, dif_neg h2', if_pos hvm]
    · rw [hvm]
      exact (List.getD_eq_getElem _ _ hh).symm
  · -- value > m
    intro slice padding h1 h2 half m hne hgt ih hs hmem
    have h2' := h2
    rw [List.isEmpty_iff_length_eq_zero] at h2
    have hh : half < slice.length := Nat.div_lt_self (Nat.pos_of_ne_zero h2) one_lt_two
    have hmd : m = slice[half] := List.getD_eq_getElem _ _ hh
    have hmem' : value ∈ slice.drop (half + 1) := by
      have hsplit : value ∈ slice.take (half + 1) ++ slice.drop (half + 1) := by
        rw [List.take_append_drop]; exact hmem
      rcases List.mem_append.mp hsplit with h | h
      · exfalso
        have := sorted_mem_take_le hs le_rfl hh value h
        rw [← hmd] at this
        exact absurd this (not_le.mpr hgt)
      · exact h
    have hsd : (slice.drop (half + 1)).Sorted (· ≤ ·) :=
      List.Pairwise.sublist (List.drop_sublist _ _) hs
    obtain ⟨i, hi, heq, hget⟩ := ih hsd hmem'
    have hi' : half + 1 + i < slice.length := by
      rw [List.length_drop] at hi; omega
    refine ⟨half + 1 + i, hi', ?_, ?_⟩
    · rw [find_index]
      rw [if_neg h1, dif_neg h2', if_neg hne, if_pos hgt, heq]
      congr 1
      omega
    · rw [← hget, List.getElem_drop]
  · -- value < m
    intro slice padding h1 h2 half m hne hngt ih hs hmem
    have h2' := h2
    rw [List.isEmpty_iff_length_eq_zero] at h2
    have hh : half < slice.length := Nat.div_lt_self (Nat.pos_of_ne_zero h2) one_lt_two
    have hmd : m = slice[half] := List.getD_eq_getElem _ _ hh
    have hlt : value < m := lt_of_le_of_ne (not_lt.mp hngt) hne
    have hmem' : value ∈ slice.take half := by
      have hsplit : value ∈ slice.take half ++ slice.drop half := by
        rw [List.take_append_drop]; exact hmem
      rcases List.mem_append.mp hsplit with h | h
      · exact h
      · exfalso
        have := sorted_mem_drop_ge hs le_rfl hh value h
        rw [← hmd] at this
        exact absurd this (not_le.mpr hlt)
    have hst : (slice.take half).Sorted (· ≤ ·) :=
      List.Pairwise.sublist (List.take_sublist _ _) hs
    obtain ⟨i, hi, heq, hget⟩ := ih hst hmem'
    have hil : i < half := by
      rw [List.length_take] at hi
      exact lt_of_lt_of_le hi (min_le_left _ _)
    have hi' : i < slice.length := lt_trans hil hh
    refine ⟨i, hi', ?_, ?_⟩
    · rw [find_index]
      rw [if_neg h1, dif_neg h2', if_neg hne, if_neg hngt, heq]
    · rw [← hget, List.getElem_take]

lemma find_insert_index_spec (value : ℚ) :
    ∀ (slice : List ℚ) (padding : ℕ), slice.Sorted (· ≤ ·) →
    ∃ j, j ≤ slice.length ∧
      find_insert_index value slice padding = padding + j ∧
      (∀ x ∈ slice.take j, x ≤ value) ∧ (∀ x ∈ slice.drop j, value ≤ x) := by
  apply find_insert_index.induct value
    (motive := fun slice padding => slice.Sorted (· ≤ ·) →
      ∃ j, j ≤ slice.length ∧
        find_insert_index value slice padding = padding + j ∧
        (∀ x ∈ slice.take j, x ≤ value) ∧ (∀ x ∈ slice.drop j, value ≤ x))
  · -- empty
    intro slice padding h2 _
    rw [List.isEmpty_iff] at h2
    subst h2
    refine ⟨0, by simp, by rw [find_insert_index]; simp, by simp, by simp⟩
  · -- value = m
    intro slice padding h2 half m hvm hs
    have h2' := h2
    rw [List.isEmpty_iff_length_eq_zero] at h2
    have hh : half < slice.length := Nat.div_lt_self (Nat.pos_of_ne_zero h2) one_lt_two
    have hmd : m = slice[half] := List.getD_eq_getElem _ _ hh
    refine ⟨half, le_of_lt hh, ?_, ?_, ?_⟩
    · rw [find_insert_index, dif_neg h2', if_pos hvm]
    · intro x hx
      rw [hvm, hmd]
      exact sorted_mem_take_le hs (Nat.le_succ half) hh x hx
    · intro x hx
      rw [hvm, hmd]
      exact sorted_mem_drop_ge hs le_rfl hh x hx
  · -- value > m
    intro slice padding h2 half m hne hgt ih hs
    have h2' := h2
    rw [List.isEmpty_iff_length_eq_zero] at h2
    have hh : half < slice.length := Nat.div_lt_self (Nat.pos_of_ne_zero h2) one_lt_two
    have hmd : m = slice[half] := List.getD_eq_getElem _ _ hh
    have hsd : (slice.drop (half + 1)).Sorted (· ≤ ·) :=
      List.Pairwise.sublist (List.drop_sublist _ _) hs
    obtain ⟨j, hj, heq, htk, hdp⟩ := ih hsd
    rw [List.length_drop] at hj
    refine ⟨half + 1 + j, by omega, ?_, ?_, ?_⟩
    · rw [find_insert_index, dif_neg h2', if_neg hne, if_pos hgt, heq]
      omega
    · intro x hx
      rw [List.take_add] at hx
      rcases List.mem_append.mp hx with h | h
      · have := sorted_mem_take_le hs le_rfl hh x h
        rw [← hmd] at this
        exact le_of_lt (lt_of_le_of_lt this hgt)
      · exact htk x h
    · intro x hx
      have hdd : List.drop (half + 1 + j) slice = List.drop j (List.drop (half + 1) slice) := by
        rw [List.drop_drop]
      rw [hdd] at hx
      exact hdp x hx
  · -- value < m
    intro slice padding h2 half m hne hngt ih hs
    have h2' := h2
    rw [List.isEmpty_iff_length_eq_zero] at h2
    have hh : half < slice.length := Nat.div_lt_self (Nat.pos_of_ne_zero h2) one_lt_two
    have hmd : m = slice[half] := List.getD_eq_getElem _ _ hh
    have hlt : value < m := lt_of_le_of_ne (not_lt.mp hngt) hne
    have hst : (slice.take half).Sorted (· ≤ ·) :=
      List.Pairwise.sublist (List.take_sublist _ _) hs
    obtain ⟨j, hj, heq, htk, hdp⟩ := ih hst
    rw [List.length_take] at hj
    have hjh : j ≤ half := le_trans hj (min_le_left _ _)
    refine ⟨j, by omega, ?_, ?_, ?_⟩
    · rw [find_insert_index, dif_neg h2', if_neg hne, if_neg hngt, heq]
    · intro x hx
      apply htk
      rw [List.take_take, min_eq_left hjh]
      exact hx
    · intro x hx
      have hsplit : slice.drop j = (slice.take half).drop j ++ slice.drop half := by
        conv_lhs => rw [← List.take_append_drop half slice]
        rw [List.drop_append_eq_append_drop, List.length_take,
          Nat.sub_eq_zero_of_le hj, List.drop_zero]
      rw [hsplit] at hx
      rcases List.mem_append.mp hx with h | h
      · exact hdp x h
      · have := sorted_mem_drop_ge hs le_rfl hh x h
        rw [← hmd] at this
        exact le_of_lt (lt_of_lt_of_le hlt this)

/-! ### The shifted slice as erase-then-insert -/

lemma copyLeft_set_eq {l : List ℚ} {i idx : ℕ} (hii : i < idx) (hidx : idx < l.length) (v : ℚ) :
    (copyWithinLeft l i idx).set idx v
    = (l.take i ++ l.drop (i + 1)).take idx ++ v :: (l.take i ++ l.drop (i + 1)).drop idx := by
  have hi : i < l.length := lt_trans hii hidx
  have hlti : (l.take i).length = i := by
    rw [List.length_take]; omega
  have hltm : ((l.drop (i + 1)).take (idx - i)).length = idx - i := by
    rw [List.length_take, List.length_drop]; omega
  have lhs_eq : (copyWithinLeft l i idx).set idx v
      = l.take i ++ ((l.drop (i + 1)).take (idx - i) ++ (v :: l.drop (idx + 1))) := by
    rw [copyWithinLeft, List.append_assoc, List.set_append, hlti, if_neg (by omega),
      List.set_append, hltm, if_neg (by omega)]
    have h0 : idx - i - (idx - i) = 0 := by omega
    rw [h0, ← List.getElem_cons_drop l idx hidx, List.set_cons_zero]
  have rhs_take : (l.take i ++ l.drop (i + 1)).take idx
      = l.take i ++ (l.drop (i + 1)).take (idx - i) := by
    rw [List.take_append_eq_append_take, hlti,
      List.take_of_length_le (by rw [hlti]; omega)]
  have rhs_drop : (l.take i ++ l.drop (i + 1)).drop idx = l.drop (idx + 1) := by
    rw [List.drop_append_eq_append_drop, hlti,
      List.drop_eq_nil_of_le (by rw [hlti]; omega), List.drop_drop, List.nil_append]
    congr 1
    omega
  rw [lhs_eq, rhs_take, rhs_drop, List.append_assoc]

lemma copyRight_set_eq {l : List ℚ} {i idx : ℕ} (hii : idx < i) (hi : i < l.length) (v : ℚ) :
    (copyWithinRight l idx i).set idx v
    = (l.take i ++ l.drop (i + 1)).take idx ++ v :: (l.take i ++ l.drop (i + 1)).drop idx := by
  have hidx : idx < l.length := lt_trans hii hi
  have hlts : (l.take (idx + 1)).length = idx + 1 := by
    rw [List.length_take]; omega
  have hlti : (l.take i).length = i := by
    rw [List.length_take]; omega
  have lhs_eq : (copyWithinRight l idx i).set idx v
      = (l.take idx ++ [v]) ++ ((l.drop idx).take (i - idx) ++ l.drop (i + 1)) := by
    rw [copyWithinRight, List.append_assoc, List.set_append, hlts, if_pos (by omega)]
    congr 1
    rw [List.take_succ, List.getElem?_eq_getElem hidx]
    have hlt2 : (l.take idx).length = idx := by
      rw [List.length_take]; omega
    rw [List.set_append, hlt2, if_neg (by omega)]
    have h0 : idx - idx = 0 := by omega
    rw [h0]
    rfl
  have rhs_take : (l.take i ++ l.drop (i + 1)).take idx = l.take idx := by
    rw [List.take_append_eq_append_take, hlti,
      Nat.sub_eq_zero_of_le (by omega), List.take_zero, List.append_nil,
      List.take_take, min_eq_left (by omega)]
  have rhs_drop : (l.take i ++ l.drop (i + 1)).drop idx
      = (l.drop idx).take (i - idx) ++ l.drop (i + 1) := by
    rw [List.drop_append_eq_append_drop, hlti,
      Nat.sub_eq_zero_of_le (by omega), List.drop_zero, List.drop_take]
  rw [lhs_eq, rhs_take, rhs_drop, List.append_assoc]
  rfl

lemma set_eq_mid {l : List ℚ} {i : ℕ} (hi : i < l.length) (v : ℚ) :
    l.set i v
    = (l.take i ++ l.drop (i + 1)).take i ++ v :: (l.take i ++ l.drop (i + 1)).drop i := by
  have hlti : (l.take i).length = i := by
    rw [List.length_take]; omega
  have rhs_take : (l.take i ++ l.drop (i + 1)).take i = l.take i := by
    rw [List.take_append_eq_append_take, hlti,
      Nat.sub_eq_zero_of_le (by omega), List.take_zero, List.append_nil,
      List.take_take, min_self]
  have rhs_drop : (l.take i ++ l.drop (i + 1)).drop i = l.drop (i + 1) := by
    rw [List.drop_append_eq_append_drop, hlti,
      Nat.sub_eq_zero_of_le (by omega), List.drop_zero,
      List.drop_eq_nil_of_le (by rw [hlti]), List.nil_append]
  rw [rhs_take, rhs_drop]
  conv_lhs => rw [← List.take_append_drop i l, ← List.getElem_cons_drop l i hi]
  rw [List.set_append, hlti, if_neg (by omega)]
  have h0 : i - i = 0 := by omega
  rw [h0, List.set_cons_zero]

/-! ### The SMM invariant and the characterization of `SMM.next` -/

/-- The internal invariant of `SMM`: the sorted mirror has the window's
length, is sorted, is a permutation of the window contents, and the two
half-indices are the precomputed median positions for length `N`. -/
def SMMInv (N : ℕ) (s : SMM) : Prop :=
  1 ≤ N ∧
  s.window.buf.length = N ∧
  s.slice.length = N ∧
  s.slice.Sorted (· ≤ ·) ∧
  s.slice.Perm s.window.buf ∧
  s.half = N / 2 ∧
  s.half_m1 = N / 2 - (if N % 2 = 0 then 1 else 0)

lemma smm_new_inv {N : ℕ} {v : ℚ} {s : SMM} (hN : 1 ≤ N)
    (h : SMM.new N (FP.finite v) = Except.ok s) : SMMInv N s := by
  obtain ⟨n, rfl⟩ : ∃ n, N = n + 1 := ⟨N - 1, by omega⟩
  simp only [SMM.new, FP.is_finite, Bool.not_true, Bool.false_eq_true, if_false] at h
  simp only [Except.ok.injEq] at h
  subst h
  refine ⟨by omega, ?_, ?_, ?_, ?_, ?_, ?_⟩
  · simp [Window.new]
  · simp
  · exact List.pairwise_replicate.mpr (Or.inr le_rfl)
  · exact List.Perm.refl _
  · rfl
  · simp [Nat.beq_eq_true_eq]

lemma erased_sorted {l : List ℚ} (hs : l.Sorted (· ≤ ·)) (i : ℕ) :
    (l.take i ++ l.drop (i + 1)).Sorted (· ≤ ·) := by
  apply List.Pairwise.sublist _ hs
  have h1 : (l.drop (i + 1)).Sublist (l.drop i) := by
    by_cases hi : i < l.length
    · rw [← List.getElem_cons_drop l i hi]
      exact List.sublist_cons_self _ _
    · rw [List.drop_eq_nil_of_le (by omega), List.drop_eq_nil_of_le (by omega)]
  have h2 := h1.append_left (l.take i)
  rwa [List.take_append_drop] at h2

lemma insert_sorted {E : List ℚ} {idx : ℕ} {v : ℚ} (hE : E.Sorted (· ≤ ·))
    (htk : ∀ x ∈ E.take idx, x ≤ v) (hdp : ∀ x ∈ E.drop idx, v ≤ x) :
    (E.take idx ++ v :: E.drop idx).Sorted (· ≤ ·) := by
  rw [List.Sorted, List.pairwise_append]
  refine ⟨List.Pairwise.sublist (List.take_sublist _ _) hE, ?_, ?_⟩
  · rw [List.pairwise_cons]
    exact ⟨hdp, List.Pairwise.sublist (List.drop_sublist _ _) hE⟩
  · intro a ha b hb
    rcases List.mem_cons.mp hb with rfl | hb
    · exact htk a ha
    · exact le_trans (htk a ha) (hdp b hb)

lemma erased_perm {l : List ℚ} {i : ℕ} (hi : i < l.length) :
    l.Perm (l[i] :: (l.take i ++ l.drop (i + 1))) := by
  conv_lhs => rw [← List.take_append_drop i l, ← List.getElem_cons_drop l i hi]
  exact List.perm_middle

lemma copyWithinLeft_length {l : List ℚ} {i idx : ℕ} (hii : i ≤ idx) (hidx : idx < l.length) :
    (copyWithinLeft l i idx).length = l.length := by
  rw [copyWithinLeft, List.length_append, List.length_append, List.length_take,
    List.length_take, List.length_drop, List.length_drop,
    min_eq_left (by omega : i ≤ l.length),
    min_eq_left (by omega : idx - i ≤ l.length - (i + 1))]
  omega

lemma copyWithinRight_length {l : List ℚ} {i idx : ℕ} (hii : idx ≤ i) (hi : i < l.length) :
    (copyWithinRight l idx i).length = l.length := by
  rw [copyWithinRight, List.length_append, List.length_append, List.length_take,
    List.length_take, List.length_drop, List.length_drop,
    min_eq_left (by omega : idx + 1 ≤ l.length),
    min_eq_left (by omega : i - idx ≤ l.length - idx)]
  omega

lemma median_get {N : ℕ} {slice2 buf2 : List ℚ} (hN : 1 ≤ N)
    (hlen : slice2.length = N) (hb2 : buf2.length = N)
    (hss : slice2 = List.insertionSort (· ≤ ·) buf2) :
    ∃ a b, slice2.get? (N / 2) = some a ∧
      slice2.get? (N / 2 - (if N % 2 = 0 then 1 else 0)) = some b ∧
      (a + b) * (1 / 2) = listMedian buf2 := by
  have hh : N / 2 < N := Nat.div_lt_self (by omega) one_lt_two
  have hbound1 : N / 2 < slice2.length := by omega
  by_cases hpar : N % 2 = 0
  · rw [if_pos hpar]
    have hb1 : N / 2 - 1 < slice2.length := by omega
    refine ⟨slice2[N / 2], slice2[N / 2 - 1], ?_, ?_, ?_⟩
    · rw [List.get?_eq_getElem?, List.getElem?_eq_getElem hbound1]
    · rw [List.get?_eq_getElem?, List.getElem?_eq_getElem hb1]
    · rw [listMedian, hb2, if_neg (by omega), ← hss,
        List.getD_eq_getElem _ _ hbound1, List.getD_eq_getElem _ _ hb1]
      ring
  · rw [if_neg hpar, Nat.sub_zero]
    refine ⟨slice2[N / 2], slice2[N / 2], ?_, ?_, ?_⟩
    · rw [List.get?_eq_getElem?, List.getElem?_eq_getElem hbound1]
    · rw [List.get?_eq_getElem?, List.getElem?_eq_getElem hbound1]
    · rw [listMedian, hb2, if_pos (by omega), ← hss, List.getD_eq_getElem _ _ hbound1]
      ring

theorem smm_next_some {N : ℕ} {s : SMM} (hinv : SMMInv N s) (v : ℚ) :
    s.next (FP.finite v) =
      some (listMedian ((s.window.push v).2.buf),
        { half := s.half, half_m1 := s.half_m1,
          window := (s.window.push v).2,
          slice := List.insertionSort (· ≤ ·) ((s.window.push v).2.buf) }) := by
  obtain ⟨hN, hwlen, hslen, hsort, hperm, hhalf, hhm1⟩ := hinv
  have hbne : s.window.buf ≠ [] := by
    intro hh; rw [hh] at hwlen; simp at hwlen; omega
  obtain ⟨e, rest, hbuf⟩ := List.exists_cons_of_ne_nil hbne
  have hrlen : rest.length = N - 1 := by
    have h := hwlen; rw [hbuf] at h; simp at h; omega
  have hpush : s.window.push v = (e, ⟨rest ++ [v]⟩) := by
    rw [Window.push, hbuf]; rfl
  have hemem : e ∈ s.slice := hperm.mem_iff.mpr (by rw [hbuf]; exact List.mem_cons_self e rest)
  obtain ⟨i, hi, hfi, hgi⟩ := find_index_spec e s.slice 0 hsort hemem
  obtain ⟨j, hj, hfj, htkj, hdpj⟩ := find_insert_index_spec v s.slice 0 hsort
  rw [zero_add] at hfi hfj
  rw [SMM.next]
  simp only [FP.is_finite, Bool.not_true, Bool.false_eq_true, if_false, FP.toRat, hpush, hfi, hfj]
  set idx := j - (if i < j then 1 else 0) with hidx_def
  have hiN : i < N := by omega
  have hidxN : idx ≤ N - 1 := by
    rw [hidx_def]
    by_cases hij : i < j
    · rw [if_pos hij]; omega
    · rw [if_neg hij]; omega
  -- the slice with the evicted occurrence removed
  have hElen : (s.slice.take i ++ s.slice.drop (i + 1)).length = N - 1 := by
    rw [List.length_append, List.length_take, List.length_drop, min_eq_left (by omega)]
    omega
  have hEsort : (s.slice.take i ++ s.slice.drop (i + 1)).Sorted (· ≤ ·) := erased_sorted hsort i
  have hEperm : (s.slice.take i ++ s.slice.drop (i + 1)).Perm rest := by
    have h1 : s.slice.Perm (e :: (s.slice.take i ++ s.slice.drop (i + 1))) := by
      have h := erased_perm hi (l := s.slice)
      rwa [hgi] at h
    have h2 : s.slice.Perm (e :: rest) := hbuf ▸ hperm
    exact (h1.symm.trans h2).cons_inv
  -- the shift branch collapses to erase-then-insert
  have hkey : ∃ slice1, (if idx > i then
        (if idx < s.slice.length then some (copyWithinLeft s.slice i idx) else none)
      else if idx < i then
        (if i < s.slice.length then some (copyWithinRight s.slice idx i) else none)
      else some s.slice) = some slice1 ∧
      slice1.set idx v = (s.slice.take i ++ s.slice.drop (i + 1)).take idx ++
        v :: (s.slice.take i ++ s.slice.drop (i + 1)).drop idx := by
    rcases lt_trichotomy idx i with hlt | heq | hgt
    · refine ⟨copyWithinRight s.slice idx i, ?_, ?_⟩
      · rw [if_neg (by omega), if_pos hlt, if_pos hi]
      · exact copyRight_set_eq hlt hi v
    · refine ⟨s.slice, ?_, ?_⟩
      · rw [if_neg (by omega), if_neg (by omega)]
      · rw [heq]
        exact set_eq_mid hi v
    · have hidxlen : idx < s.slice.length := by omega
      refine ⟨copyWithinLeft s.slice i idx, ?_, ?_⟩
      · rw [if_pos hgt, if_pos hidxlen]
      · exact copyLeft_set_eq hgt hidxlen v
  obtain ⟨slice1, hs1, hs2⟩ := hkey
  rw [hs1]
  -- lengths
  have hs2len : (slice1.set idx v).length = N := by
    rw [hs2, List.length_append, List.length_cons, List.length_take, List.length_drop,
      min_eq_left (by omega)]
    omega
  have hs1len : slice1.length = N := by
    have h := hs2len
    rwa [List.length_set] at h
  -- bounds: everything before idx in the erased slice is ≤ v, everything from idx on is ≥ v
  have hEtk : ∀ x ∈ (s.slice.take i ++ s.slice.drop (i + 1)).take idx, x ≤ v := by
    intro x hx
    rw [List.take_append_eq_append_take, List.length_take, min_eq_left (by omega)] at hx
    by_cases hij : i < j
    · have hidxe : idx = j - 1 := by rw [hidx_def, if_pos hij]
      have hiidx : i ≤ idx := by omega
      rcases List.mem_append.mp hx with h | h
      · rw [List.take_take, min_eq_right hiidx] at h
        apply htkj
        have hti : s.slice.take i = (s.slice.take j).take i := by
          rw [List.take_take, min_eq_left (by omega)]
        rw [hti] at h
        exact List.mem_of_mem_take h
      · have hseg : (s.slice.drop (i + 1)).take (idx - i) = (s.slice.take j).drop (i + 1) := by
          rw [List.drop_take]
          congr 1
          omega
        rw [hseg] at h
        exact htkj x (List.mem_of_mem_drop h)
    · have hidxe : idx = j := by rw [hidx_def, if_neg hij]; omega
      have hji : j ≤ i := by omega
      rcases List.mem_append.mp hx with h | h
      · rw [List.take_take, min_eq_left (by omega)] at h
        rw [hidxe] at h
        exact htkj x h
      · rw [Nat.sub_eq_zero_of_le (by omega), List.take_zero] at h
        simp at h
  have hEdp : ∀ x ∈ (s.slice.take i ++ s.slice.drop (i + 1)).drop idx, v ≤ x := by
    intro x hx
    rw [List.drop_append_eq_append_drop, List.length_take, min_eq_left (by omega)] at hx
    by_cases hij : i < j
    · have hidxe : idx = j - 1 := by rw [hidx_def, if_pos hij]
      have hiidx : i ≤ idx := by omega
      rw [List.drop_eq_nil_of_le (by rw [List.length_take]; omega), List.nil_append,
        List.drop_drop] at hx
      have hseg : i + 1 + (idx - i) = j := by omega
      rw [hseg] at hx
      exact hdpj x hx
    · have hidxe : idx = j := by rw [hidx_def, if_neg hij]; omega
      have hji : j ≤ i := by omega
      rcases List.mem_append.mp hx with h | h
      · rw [List.drop_take] at h
        apply hdpj
        rw [hidxe] at h
        exact List.mem_of_mem_take h
      · have hseg : s.slice.drop (i + 1) = (s.slice.drop j).drop (i + 1 - j) := by
          rw [List.drop_drop]
          congr 1
          omega
        rw [Nat.sub_eq_zero_of_le (by omega), List.drop_zero, hseg] at h
        exact hdpj x (List.mem_of_mem_drop h)
  -- the updated slice is sorted and a permutation of the new window
  have hsorted2 : (slice1.set idx v).Sorted (· ≤ ·) := by
    rw [hs2]
    exact insert_sorted hEsort hEtk hEdp
  have hperm2 : (slice1.set idx v).Perm (rest ++ [v]) := by
    rw [hs2]
    refine List.Perm.trans List.perm_middle ?_
    rw [List.take_append_drop]
    refine List.Perm.trans (hEperm.cons v) ?_
    have h : (rest ++ [v]).Perm (v :: (rest ++ [])) := List.perm_middle
    simpa using h.symm
  have hss : slice1.set idx v = List.insertionSort (· ≤ ·) (rest ++ [v]) := by
    refine List.eq_of_perm_of_sorted ?_ hsorted2 (List.sorted_insertionSort _ _)
    exact hperm2.trans (List.perm_insertionSort _ _).symm
  have hb2len : (rest ++ [v]).length = N := by
    rw [List.length_append, List.length_cons, List.length_nil]
    omega
  obtain ⟨a, b, hga, hgb, hmed⟩ := median_get hN hs2len hb2len hss
  rw [hhalf, hhm1] at *
  have hguard : idx < slice1.length := by omega
  dsimp only
  rw [if_pos hguard, hga, hgb]
  dsimp only
  rw [hmed, hss]

lemma push_buf_length {w : Window} {v : ℚ} (h : 1 ≤ w.buf.length) :
    (w.push v).2.buf.length = w.buf.length := by
  rw [Window.push]
  simp only [List.length_append, List.length_tail, List.length_cons, List.length_nil]
  omega

lemma smm_next_inv {N : ℕ} {s : SMM} (hinv : SMMInv N s) (v : ℚ) :
    SMMInv N
      { half := s.half, half_m1 := s.half_m1, window := (s.window.push v).2,
        slice := List.insertionSort (· ≤ ·) ((s.window.push v).2.buf) } := by
  obtain ⟨hN, hwlen, hslen, hsort, hperm, hhalf, hhm1⟩ := hinv
  have hlen2 : (s.window.push v).2.buf.length = N := by
    rw [push_buf_length (by omega)]; omega
  exact ⟨hN, hlen2, by rw [List.length_insertionSort]; exact hlen2,
    List.sorted_insertionSort _ _, List.perm_insertionSort _ _, hhalf, hhm1⟩

/-- Running `SMM.next` over any finite input sequence from an invariant state
panics nowhere and returns, at every step, the median of the then-current
window contents. -/
lemma smm_steps_eq {N : ℕ} : ∀ (vs : List ℚ) (s : SMM), SMMInv N s →
    s.steps vs = some ((Window.steps s.window vs).map (fun w => listMedian w.buf)) := by
  intro vs
  induction vs with
  | nil => intro s _; rfl
  | cons v vs ih =>
    intro s hinv
    simp only [SMM.steps, Window.steps]
    rw [smm_next_some hinv v]
    dsimp only
    rw [ih _ (smm_next_inv hinv v)]
    rfl

lemma smm_runState_eq {N : ℕ} : ∀ (vs : List ℚ) (s : SMM), SMMInv N s →
    ∃ s', s.runState vs = some s' ∧ SMMInv N s' := by
  intro vs
  induction vs with
  | nil => intro s hinv; exact ⟨s, rfl, hinv⟩
  | cons v vs ih =>
    intro s hinv
    simp only [SMM.runState]
    rw [smm_next_some hinv v]
    exact ih _ (smm_next_inv hinv v)

/-- Characterization of the panic of `SMM.next`: from an invariant state it
returns `none` exactly on a non-finite input. -/
lemma smm_next_none_iff {N : ℕ} {s : SMM} (hinv : SMMInv N s) (value : FP) :
    (s.next value = none ↔ value.is_finite = false) := by
  cases value with
  | finite q =>
    rw [smm_next_some hinv q]
    simp [FP.is_finite]
  | nan => exact ⟨fun _ => rfl, fun _ => rfl⟩
  | posInf => exact ⟨fun _ => rfl, fun _ => rfl⟩
  | negInf => exact ⟨fun _ => rfl, fun _ => rfl⟩

/-! ### Exactness of the integer arithmetic in `LinReg::new` -/

lemma two_dvd_mul_pred (n : ℕ) : 2 ∣ n * (n - 1) := by
  rcases (by omega : n % 2 = 0 ∨ n % 2 = 1) with h | h
  · exact Dvd.dvd.mul_right (by omega) _
  · exact Dvd.dvd.mul_left (by omega) _

lemma s_x_nat_cast (n : ℕ) (h : 1 ≤ n) :
    ((n * (n - 1) / 2 : ℕ) : ℚ) = (n : ℚ) * ((n : ℚ) - 1) / 2 := by
  rw [Nat.cast_div (two_dvd_mul_pred n) (by norm_num), Nat.cast_mul,
    Nat.cast_sub (by omega)]
  norm_num

lemma three_dvd_s_x2 (n : ℕ) : 3 ∣ (n * (n - 1) / 2) * (2 * (n - 1) + 1) := by
  have h2 := two_dvd_mul_pred n
  have key : 3 ∣ n * (n - 1) ∨ 3 ∣ 2 * (n - 1) + 1 := by
    rcases (by omega : n % 3 = 0 ∨ n % 3 = 1 ∨ n % 3 = 2) with h3 | h3 | h3
    · exact Or.inl (Dvd.dvd.mul_right (by omega) _)
    · rcases (by omega : n = 0 ∨ 1 ≤ n) with h0 | h1
      · subst h0; simp
      · exact Or.inl (Dvd.dvd.mul_left (by omega) _)
    · exact Or.inr (by omega)
  rcases key with hk | hk
  · have hrw : 2 * (n * (n - 1) / 2) = n * (n - 1) := Nat.mul_div_cancel' h2
    have h3' : 3 ∣ n * (n - 1) / 2 := by
      refine (Nat.Coprime.dvd_of_dvd_mul_left (show Nat.Coprime 3 2 by decide) ?_ : 3 ∣ n * (n - 1) / 2)
      rw [hrw]
      exact hk
    exact h3'.mul_right _
  · exact hk.mul_left _

lemma s_x2_nat_cast (n : ℕ) (h : 1 ≤ n) :
    (((n * (n - 1) / 2) * (2 * (n - 1) + 1) / 3 : ℕ) : ℚ)
      = (n : ℚ) * ((n : ℚ) - 1) * (2 * (n : ℚ) - 1) / 6 := by
  rw [Nat.cast_div (three_dvd_s_x2 n) (by norm_num), Nat.cast_mul, s_x_nat_cast n h,
    Nat.cast_add, Nat.cast_mul, Nat.cast_sub (by omega)]
  push_cast
  ring

lemma s_x_sq_le (n : ℕ) (h : 1 ≤ n) :
    (n * (n - 1) / 2) * (n * (n - 1) / 2) ≤ n * ((n * (n - 1) / 2) * (2 * (n - 1) + 1) / 3) := by
  rw [← @Nat.cast_le ℚ, Nat.cast_mul, Nat.cast_mul, s_x_nat_cast n h, s_x2_nat_cast n h]
  have hn : (1 : ℚ) ≤ (n : ℚ) := by exact_mod_cast h
  have h2 : 0 ≤ (n : ℚ) ^ 2 * ((n : ℚ) - 1) * ((n : ℚ) + 1) :=
    mul_nonneg (mul_nonneg (sq_nonneg _) (by linarith)) (by linarith)
  nlinarith [h2]

lemma divider_pos_q (n : ℕ) (h : 2 ≤ n) :
    0 < (n : ℚ) * ((n : ℚ) * ((n : ℚ) - 1) * (2 * (n : ℚ) - 1) / 6) -
      ((n : ℚ) * ((n : ℚ) - 1) / 2) * ((n : ℚ) * ((n : ℚ) - 1) / 2) := by
  have hn : (2 : ℚ) ≤ (n : ℚ) := by exact_mod_cast h
  have hkey : (n : ℚ) * ((n : ℚ) * ((n : ℚ) - 1) * (2 * (n : ℚ) - 1) / 6) -
      ((n : ℚ) * ((n : ℚ) - 1) / 2) * ((n : ℚ) * ((n : ℚ) - 1) / 2)
      = (n : ℚ) ^ 2 * ((n : ℚ) - 1) * ((n : ℚ) + 1) / 12 := by ring
  rw [hkey]
  have h1 : 0 < (n : ℚ) ^ 2 := by nlinarith
  have h2 : 0 < (n : ℚ) - 1 := by linarith
  have h3 : 0 < (n : ℚ) + 1 := by linarith
  positivity

/-! ### The `LinReg` invariant -/

lemma rankSum_replicate (n : ℕ) (x : ℚ) :
    rankSum (List.replicate n x) = (n : ℚ) * ((n : ℚ) - 1) / 2 * x := by
  induction n with
  | zero => simp [rankSum]
  | succ m ih =>
    rw [List.replicate_succ, rankSum, List.length_replicate, ih]
    push_cast
    ring

lemma rankSum_append_singleton (l : List ℚ) (v : ℚ) :
    rankSum (l ++ [v]) = rankSum l + l.sum := by
  induction l with
  | nil => simp [rankSum]
  | cons y rest ih =>
    rw [List.cons_append, rankSum, rankSum, ih, List.length_append, List.length_singleton,
      List.sum_cons]
    push_cast
    ring

/-- The internal invariant of `LinReg`: the precomputed constants match the
closed forms for length `N`, and the running sums are the negated direct sums
over the current window contents. -/
def LinRegInv (N : ℕ) (t : LinReg) : Prop :=
  2 ≤ N ∧
  t.window.buf.length = N ∧
  t.float_length = (N : ℚ) ∧
  t.length_invert = -((N : ℚ))⁻¹ ∧
  t.s_x = -((N : ℚ) * ((N : ℚ) - 1) / 2) ∧
  t.divider = ((N : ℚ) * ((N : ℚ) * ((N : ℚ) - 1) * (2 * (N : ℚ) - 1) / 6) -
    ((N : ℚ) * ((N : ℚ) - 1) / 2) * ((N : ℚ) * ((N : ℚ) - 1) / 2))⁻¹ ∧
  t.s_y = -(t.window.buf.sum) ∧
  t.s_xy = -(rankSum t.window.buf)

lemma linreg_new_pos {N : ℕ} {v : FP} {t : LinReg} (h : LinReg.new N v = Except.ok t) :
    2 ≤ N := by
  match N, h with
  | 0, h => rw [LinReg.new] at h; cases h
  | 1, h => rw [LinReg.new] at h; cases h
  | (n + 2), _ => omega

lemma linreg_new_inv {N : ℕ} {v : FP} {t : LinReg} (h : LinReg.new N v = Except.ok t) :
    LinRegInv N t := by
  have hN : 2 ≤ N := linreg_new_pos h
  obtain ⟨n, rfl⟩ : ∃ n, N = n + 2 := ⟨N - 2, by omega⟩
  simp only [LinReg.new, Except.ok.injEq] at h
  subst h
  have h1 : (1 : ℕ) ≤ n + 2 := by omega
  refine ⟨?_, ?_, ?_, ?_, ?_, ?_, ?_, ?_⟩
  · omega
  · simp [Window.new]
  · norm_num
  · norm_num
  · simp only [s_x_nat_cast (n + 2) h1]
  · rw [Nat.cast_sub (s_x_sq_le (n + 2) h1), Nat.cast_mul, Nat.cast_mul,
      s_x_nat_cast (n + 2) h1, s_x2_nat_cast (n + 2) h1]
  · simp only [Window.new, List.sum_replicate, nsmul_eq_mul]
    push_cast
    ring
  · simp only [Window.new, rankSum_replicate, s_x_nat_cast (n + 2) h1]
    push_cast
    ring

lemma linreg_next_step {N : ℕ} {t : LinReg} (hinv : LinRegInv N t) (v : ℚ) :
    LinRegInv N (t.next v).2 ∧ (t.next v).1 = directIntercept ((t.window.push v).2.buf) := by
  obtain ⟨hN, hwlen, hfl, hli, hsx, hdiv, hsy, hsxy⟩ := hinv
  have hbne : t.window.buf ≠ [] := by
    intro hh; rw [hh] at hwlen; simp at hwlen; omega
  obtain ⟨e, rest, hbuf⟩ := List.exists_cons_of_ne_nil hbne
  have hrlen : rest.length = N - 1 := by
    have hw := hwlen; rw [hbuf] at hw; simp at hw; omega
  have hrcast : ((rest.length : ℚ)) = (N : ℚ) - 1 := by
    rw [hrlen, Nat.cast_sub (by omega : 1 ≤ N)]
    norm_num
  have hpush : t.window.push v = (e, ⟨rest ++ [v]⟩) := by
    rw [Window.push, hbuf]; rfl
  have hsum2 : (rest ++ [v]).sum = rest.sum + v := by
    rw [List.sum_append]; simp
  have hrank2 : rankSum (rest ++ [v]) = rankSum rest + rest.sum := rankSum_append_singleton rest v
  have hsumbuf : t.window.buf.sum = e + rest.sum := by rw [hbuf]; simp
  have hrankbuf : rankSum t.window.buf = (rest.length : ℚ) * e + rankSum rest := by
    rw [hbuf, rankSum]
  have hlen2 : (rest ++ [v]).length = N := by
    rw [List.length_append, List.length_singleton]
    omega
  have h2xy : (t.next v).2.s_xy = t.s_xy + (e * t.float_length + t.s_y) := by
    simp only [LinReg.next, hpush]
  have h2y : (t.next v).2.s_y = t.s_y + (e - v) := by
    simp only [LinReg.next, hpush]
  have h2w : (t.next v).2.window = ⟨rest ++ [v]⟩ := by
    simp only [LinReg.next, hpush]
  have h2x : (t.next v).2.s_x = t.s_x := rfl
  have h2fl : (t.next v).2.float_length = t.float_length := rfl
  have h2li : (t.next v).2.length_invert = t.length_invert := rfl
  have h2div : (t.next v).2.divider = t.divider := rfl
  have h1b : (t.next v).1 = (t.next v).2.b := rfl
  have hnne : (N : ℚ) ≠ 0 := by
    have h0 : (0 : ℚ) < (N : ℚ) := by exact_mod_cast (by omega : 0 < N)
    exact ne_of_gt h0
  have hDne : (N : ℚ) * ((N : ℚ) * ((N : ℚ) - 1) * (2 * (N : ℚ) - 1) / 6) -
      ((N : ℚ) * ((N : ℚ) - 1) / 2) * ((N : ℚ) * ((N : ℚ) - 1) / 2) ≠ 0 :=
    ne_of_gt (divider_pos_q N hN)
  constructor
  · refine ⟨hN, ?_, ?_, ?_, ?_, ?_, ?_, ?_⟩
    · rw [h2w]; exact hlen2
    · rw [h2fl]; exact hfl
    · rw [h2li]; exact hli
    · rw [h2x]; exact hsx
    · rw [h2div]; exact hdiv
    · rw [h2y, h2w, hsy, hsumbuf, hsum2]
      ring
    · rw [h2xy, h2w, hsxy, hsy, hfl, hrankbuf, hsumbuf, hrank2, hrcast]
      ring
  · rw [h1b, LinReg.b, LinReg.tan, h2xy, h2y, h2x, h2fl, h2li, h2div]
    rw [hsxy, hsy, hsx, hfl, hli, hdiv, hrankbuf, hsumbuf, hrcast, hpush]
    rw [directIntercept]
    dsimp only
    rw [hlen2, hsum2, hrank2]
    field_simp
    ring

lemma linreg_steps_eq {N : ℕ} : ∀ (vs : List ℚ) (t : LinReg), LinRegInv N t →
    t.steps vs = (Window.steps t.window vs).map (fun w => directIntercept w.buf) := by
  intro vs
  induction vs with
  | nil => intro t _; rfl
  | cons v vs ih =>
    intro t hinv
    simp only [LinReg.steps, Window.steps, List.map_cons]
    rw [(linreg_next_step hinv v).2, ih _ (linreg_next_step hinv v).1]
    rfl

lemma linreg_runState_inv {N : ℕ} : ∀ (vs : List ℚ) (t : LinReg), LinRegInv N t →
    LinRegInv N (t.runState vs) := by
  intro vs
  induction vs with
  | nil => intro t hinv; exact hinv
  | cons v vs ih =>
    intro t hinv
    exact ih _ (linreg_next_step hinv v).1

/-! ### Constant-input stability -/

lemma push_replicate {N : ℕ} (h : 1 ≤ N) (v : ℚ) :
    (Window.push ⟨List.replicate N v⟩ v).2 = ⟨List.replicate N v⟩ := by
  obtain ⟨m, rfl⟩ : ∃ m, N = m + 1 := ⟨N - 1, by omega⟩
  show (⟨(List.replicate (m + 1) v).tail ++ [v]⟩ : Window) = ⟨List.replicate (m + 1) v⟩
  congr 1
  rw [List.replicate_succ, List.tail_cons, ← List.replicate_succ', List.replicate_succ]

lemma window_steps_replicate {N : ℕ} (h : 1 ≤ N) (v : ℚ) (k : ℕ) :
    Window.steps ⟨List.replicate N v⟩ (List.replicate k v)
      = List.replicate k ⟨List.replicate N v⟩ := by
  induction k with
  | zero => rfl
  | succ m ih =>
    rw [List.replicate_succ]
    simp only [Window.steps]
    rw [push_replicate h, ih, List.replicate_succ]

lemma insertionSort_replicate (n : ℕ) (v : ℚ) :
    List.insertionSort (· ≤ ·) (List.replicate n v) = List.replicate n v :=
  List.eq_of_perm_of_sorted (List.perm_insertionSort _ _)
    (List.sorted_insertionSort _ _) (List.pairwise_replicate.mpr (Or.inr le_rfl))

lemma listMedian_replicate {N : ℕ} (h : 1 ≤ N) (v : ℚ) :
    listMedian (List.replicate N v) = v := by
  rw [listMedian]
  rw [insertionSort_replicate, List.length_replicate]
  have h1 : N / 2 < N := Nat.div_lt_self (by omega) one_lt_two
  by_cases hpar : N % 2 = 1
  · rw [if_pos hpar, List.getD_eq_getElem _ _ (by rw [List.length_replicate]; omega),
      List.getElem_replicate]
  · rw [if_neg hpar, List.getD_eq_getElem _ _ (by rw [List.length_replicate]; omega),
      List.getD_eq_getElem _ _ (by rw [List.length_replicate]; omega),
      List.getElem_replicate, List.getElem_replicate]
    ring
lemma directIntercept_replicate {N : ℕ} (h : 2 ≤ N) (v : ℚ) :
    directIntercept (List.replicate N v) = v := by
  rw [directIntercept]
  rw [List.length_replicate, List.sum_replicate, nsmul_eq_mul, rankSum_replicate]
  have hnne : (N : ℚ) ≠ 0 := by
    have h0 : (0 : ℚ) < (N : ℚ) := by exact_mod_cast (by omega : 0 < N)
    exact ne_of_gt h0
  have hDne : (N : ℚ) * ((N : ℚ) * ((N : ℚ) - 1) * (2 * (N : ℚ) - 1) / 6) -
      ((N : ℚ) * ((N : ℚ) - 1) / 2) * ((N : ℚ) * ((N : ℚ) - 1) / 2) ≠ 0 :=
    ne_of_gt (divider_pos_q N h)
  field_simp
  ring

/-! ### Small construction facts -/

lemma smm_new_ok_pos {N : ℕ} {v : FP} {s : SMM} (h : SMM.new N v = Except.ok s) : 1 ≤ N := by
  cases N with
  | zero =>
    exfalso
    cases hf : v.is_finite with
    | false => simp [SMM.new, hf] at h
    | true => simp [SMM.new, hf] at h
  | succ n => omega

lemma smm_new_window {N : ℕ} {v : ℚ} {s : SMM} (h : SMM.new N (FP.finite v) = Except.ok s) :
    s.window = ⟨List.replicate N v⟩ := by
  have hN := smm_new_ok_pos h
  obtain ⟨n, rfl⟩ : ∃ n, N = n + 1 := ⟨N - 1, by omega⟩
  simp only [SMM.new, FP.is_finite, Bool.not_true, Bool.false_eq_true, if_false,
    Except.ok.injEq] at h
  subst h
  rfl

lemma linreg_new_window {N : ℕ} {v : ℚ} {t : LinReg} (h : LinReg.new N (FP.finite v) = Except.ok t) :
    t.window = ⟨List.replicate N v⟩ := by
  have hN := linreg_new_pos h
  obtain ⟨n, rfl⟩ : ∃ n, N = n + 2 := ⟨N - 2, by omega⟩
  simp only [LinReg.new, Except.ok.injEq] at h
  subst h
  rfl

/-! ### The claims -/

/-- C1: for every window length N ≥ 1, every finite first value and every
sequence of finite inputs, each `SMM::next` call returns normally and yields
the median of the current N-sample window: the middle element of the sorted
window when N is odd, the average of the two middle elements when N is even
(this is exactly `listMedian`). -/
theorem c1_smm_median_correct (N : ℕ) (v0 : ℚ) (s : SMM) (vs : List ℚ)
    (h : SMM.new N (FP.finite v0) = Except.ok s) :
    s.steps vs = some ((Window.steps s.window vs).map (fun w => listMedian w.buf)) :=
  smm_steps_eq vs s (smm_new_inv (smm_new_ok_pos h) h)

theorem c1_smm_median_correct_witness :
    SMM.steps ⟨1, 1, ⟨[1, 1, 1]⟩, [1, 1, 1]⟩ [2, 5]
      = some ((Window.steps ⟨[1, 1, 1]⟩ [2, 5]).map (fun w => listMedian w.buf)) :=
  c1_smm_median_correct 3 1 ⟨1, 1, ⟨[1, 1, 1]⟩, [1, 1, 1]⟩ [2, 5] rfl

/-- C2: for every window length N ≥ 2, every first value and every input
sequence, each `LinReg::next` call returns the least-squares intercept at the
newest sample obtained by direct recomputation over the current window
(`directIntercept`); the incremental maintenance is exact. -/
theorem c2_linreg_regression_correct (N : ℕ) (v0 : ℚ) (t : LinReg) (vs : List ℚ)
    (h : LinReg.new N (FP.finite v0) = Except.ok t) :
    t.steps vs = (Window.steps t.window vs).map (fun w => directIntercept w.buf) :=
  linreg_steps_eq vs t (linreg_new_inv h)

theorem c2_linreg_regression_correct_witness :
    ((LinReg.new 2 (FP.finite 1)).toOption.getD default).steps [5, 7]
      = (Window.steps ((LinReg.new 2 (FP.finite 1)).toOption.getD default).window [5, 7]).map
          (fun w => directIntercept w.buf) :=
  c2_linreg_regression_correct 2 1 ((LinReg.new 2 (FP.finite 1)).toOption.getD default) [5, 7] rfl

/-- C3: after construction and after every `SMM::next` call, the sorted
mirror `slice` is non-decreasing and is a permutation of (holds the same
multiset as) the window's current contents. -/
theorem c3_smm_sorted_invariant (N : ℕ) (v0 : ℚ) (s : SMM) (vs : List ℚ)
    (h : SMM.new N (FP.finite v0) = Except.ok s) :
    (s.slice.Sorted (· ≤ ·) ∧ s.slice.Perm s.window.buf) ∧
    ∃ s', s.runState vs = some s' ∧ s'.slice.Sorted (· ≤ ·) ∧ s'.slice.Perm s'.window.buf := by
  have hinv := smm_new_inv (smm_new_ok_pos h) h
  refine ⟨⟨hinv.2.2.2.1, hinv.2.2.2.2.1⟩, ?_⟩
  obtain ⟨s', hrun, hinv'⟩ := smm_runState_eq vs s hinv
  exact ⟨s', hrun, hinv'.2.2.2.1, hinv'.2.2.2.2.1⟩

theorem c3_smm_sorted_invariant_witness :
    ((⟨1, 1, ⟨[1, 1, 1]⟩, [1, 1, 1]⟩ : SMM).slice.Sorted (· ≤ ·) ∧
      (⟨1, 1, ⟨[1, 1, 1]⟩, [1, 1, 1]⟩ : SMM).slice.Perm
        (⟨1, 1, ⟨[1, 1, 1]⟩, [1, 1, 1]⟩ : SMM).window.buf) ∧
    ∃ s', SMM.runState ⟨1, 1, ⟨[1, 1, 1]⟩, [1, 1, 1]⟩ [2, 7] = some s' ∧
      s'.slice.Sorted (· ≤ ·) ∧ s'.slice.Perm s'.window.buf :=
  c3_smm_sorted_invariant 3 1 ⟨1, 1, ⟨[1, 1, 1]⟩, [1, 1, 1]⟩ [2, 7] rfl

/-- C4 (counterexample): the claimed example run is wrong on the second call.
With length 3 and first value 1.0 the window after `next(1.0), next(2.0)` is
[1, 1, 2], whose median is 1.0, not the claimed 2.0: the run returns
[1, 1, 2, 3], not [1, 2, 2, 3]. -/
theorem c4_smm_example_counterexample :
    ∃ s, SMM.new 3 (FP.finite 1) = Except.ok s ∧
      s.steps [1, 2, 3, 100] ≠ some [1, 2, 2, 3] := by
  have h : SMM.new 3 (FP.finite 1) = Except.ok ⟨1, 1, ⟨[1, 1, 1]⟩, [1, 1, 1]⟩ := rfl
  refine ⟨_, h, ?_⟩
  rw [smm_steps_eq _ _ (smm_new_inv (by omega) h)]
  decide

/-- C4 (amended): for the length-3 tracker constructed with first value 1.0,
the calls return next(1.0) = 1.0, next(2.0) = 1.0, next(3.0) = 2.0,
next(100.0) = 3.0. -/
theorem c4_smm_example_amended :
    ∃ s, SMM.new 3 (FP.finite 1) = Except.ok s ∧
      s.steps [1, 2, 3, 100] = some [1, 1, 2, 3] := by
  have h : SMM.new 3 (FP.finite 1) = Except.ok ⟨1, 1, ⟨[1, 1, 1]⟩, [1, 1, 1]⟩ := rfl
  refine ⟨_, h, ?_⟩
  rw [smm_steps_eq _ _ (smm_new_inv (by omega) h)]
  decide

/-- C5 (counterexample): the running sums are not the direct sums: right
after construction with length 2 and first value 1.0 the field `s_y` holds
−2 while the window sums to 2, and `s_xy` holds −1 while Σ x·y = 1. -/
theorem c5_linreg_sums_counterexample :
    ∃ t, LinReg.new 2 (FP.finite 1) = Except.ok t ∧
      t.s_y ≠ t.window.buf.sum ∧ t.s_xy ≠ rankSum t.window.buf := by
  refine ⟨_, rfl, ?_, ?_⟩
  · simp only [FP.toRat, Window.new, List.sum_replicate, nsmul_eq_mul]
    norm_num
  · simp only [FP.toRat, Window.new, rankSum_replicate]
    norm_num

/-- C5 (amended): after construction and after every `LinReg::next` call the
running-sum fields hold the NEGATED direct sums: s_y = −Σy and
s_xy = −Σ x·y (x = 0 at the newest sample, N−1 at the oldest). -/
theorem c5_linreg_sums_amended (N : ℕ) (v0 : ℚ) (t : LinReg) (vs : List ℚ)
    (h : LinReg.new N (FP.finite v0) = Except.ok t) :
    (t.s_y = -(t.window.buf.sum) ∧ t.s_xy = -(rankSum t.window.buf)) ∧
    ((t.runState vs).s_y = -((t.runState vs).window.buf.sum) ∧
      (t.runState vs).s_xy = -(rankSum (t.runState vs).window.buf)) := by
  have hinv := linreg_new_inv h
  have hinv2 := linreg_runState_inv vs t hinv
  exact ⟨⟨hinv.2.2.2.2.2.2.1, hinv.2.2.2.2.2.2.2⟩,
    ⟨hinv2.2.2.2.2.2.2.1, hinv2.2.2.2.2.2.2.2⟩⟩

theorem c5_linreg_sums_amended_witness :
    ((((LinReg.new 2 (FP.finite 1)).toOption.getD default).s_y
        = -(((LinReg.new 2 (FP.finite 1)).toOption.getD default).window.buf.sum) ∧
      ((LinReg.new 2 (FP.finite 1)).toOption.getD default).s_xy
        = -(rankSum ((LinReg.new 2 (FP.finite 1)).toOption.getD default).window.buf)) ∧
    ((((LinReg.new 2 (FP.finite 1)).toOption.getD default).runState [3]).s_y
        = -((((LinReg.new 2 (FP.finite 1)).toOption.getD default).runState [3]).window.buf.sum) ∧
      (((LinReg.new 2 (FP.finite 1)).toOption.getD default).runState [3]).s_xy
        = -(rankSum (((LinReg.new 2 (FP.finite 1)).toOption.getD default).runState [3]).window.buf))) :=
  c5_linreg_sums_amended 2 1 ((LinReg.new 2 (FP.finite 1)).toOption.getD default) [3] rfl

/-- C6 (counterexample): at length 0 with a NaN first value, `SMM::new` does
not fail with the InvalidParameters kind as the claim requires for length 0:
the finiteness check runs first and it fails with `InvalidCandles`. -/
theorem c6_construction_counterexample :
    SMM.new 0 FP.nan = Except.error Error.InvalidCandles ∧
      SMM.new 0 FP.nan ≠ Except.error Error.WrongMethodParameters := by
  refine ⟨rfl, fun hc => ?_⟩
  have h := Except.error.inj ((rfl : SMM.new 0 FP.nan = Except.error Error.InvalidCandles).symm.trans hc)
  cases h

/-- C6 (amended): `LinReg::new` fails with `WrongMethodParameters` exactly
when the length is 0 or 1 and succeeds otherwise, for every first value;
`SMM::new` fails with `InvalidCandles` whenever the first value is
non-finite (regardless of the length), fails with `WrongMethodParameters`
when the value is finite and the length is 0, and succeeds otherwise.
Both constructors are total functions. -/
theorem c6_construction_rejection_amended (N : ℕ) (v : FP) :
    ((LinReg.new N v).isOk = true ↔ 2 ≤ N) ∧
    (N = 0 ∨ N = 1 → LinReg.new N v = Except.error Error.WrongMethodParameters) ∧
    (v.is_finite = false → SMM.new N v = Except.error Error.InvalidCandles) ∧
    (v.is_finite = true → N = 0 → SMM.new N v = Except.error Error.WrongMethodParameters) ∧
    (v.is_finite = true → 1 ≤ N → (SMM.new N v).isOk = true) := by
  refine ⟨?_, ?_, ?_, ?_, ?_⟩
  · match N with
    | 0 => simp [LinReg.new, Except.isOk, Except.toBool]
    | 1 => simp [LinReg.new, Except.isOk, Except.toBool]
    | (n + 2) => simp [LinReg.new, Except.isOk, Except.toBool]
  · intro hN
    rcases hN with rfl | rfl
    · rfl
    · rfl
  · intro hf
    rw [SMM.new.eq_def, hf]
    rfl
  · intro hf hN
    subst hN
    rw [SMM.new.eq_def, hf]
    rfl
  · intro hf hN
    obtain ⟨n, rfl⟩ : ∃ n, N = n + 1 := ⟨N - 1, by omega⟩
    rw [SMM.new.eq_def, hf]
    rfl

theorem c6_construction_rejection_amended_witness :
    SMM.new 0 (FP.finite 1) = Except.error Error.WrongMethodParameters ∧
      SMM.new 4 FP.nan = Except.error Error.InvalidCandles ∧
      (LinReg.new 5 FP.posInf).isOk = true :=
  ⟨(c6_construction_rejection_amended 0 (FP.finite 1)).2.2.2.1 rfl rfl,
   (c6_construction_rejection_amended 4 FP.nan).2.2.1 rfl,
   (c6_construction_rejection_amended 5 FP.posInf).1.mpr (by omega)⟩

/-- C7: from any state satisfying the internal invariant, `SMM::next` panics
(returns `none`: the leading assertion fires, before any mutation) exactly on
a non-finite input; on every finite input it returns normally, so every slice
access performed by the searches, the shift and the median read stays in
bounds. -/
theorem c7_smm_next_panic_iff (N : ℕ) (s : SMM) (value : FP) (hinv : SMMInv N s) :
    s.next value = none ↔ value.is_finite = false :=
  smm_next_none_iff hinv value

theorem c7_smm_next_panic_iff_witness :
    (SMM.next ⟨1, 1, ⟨[1, 1, 1]⟩, [1, 1, 1]⟩ FP.nan = none ↔ FP.nan.is_finite = false) ∧
      (SMM.next ⟨1, 1, ⟨[1, 1, 1]⟩, [1, 1, 1]⟩ (FP.finite 5) = none ↔
        (FP.finite 5).is_finite = false) :=
  ⟨c7_smm_next_panic_iff 3 ⟨1, 1, ⟨[1, 1, 1]⟩, [1, 1, 1]⟩ FP.nan
      (smm_new_inv (by omega) rfl),
   c7_smm_next_panic_iff 3 ⟨1, 1, ⟨[1, 1, 1]⟩, [1, 1, 1]⟩ (FP.finite 5)
      (smm_new_inv (by omega) rfl)⟩

/-- C8: constant-input stability: a tracker constructed with first value v
returns exactly v on every subsequent `next(v)` call, for both the regression
tracker (any valid length ≥ 2) and the order-statistic tracker (any valid
length ≥ 1), for any number of calls. -/
theorem c8_constant_input_stability (N M k : ℕ) (v : ℚ) (t : LinReg) (s : SMM)
    (ht : LinReg.new N (FP.finite v) = Except.ok t)
    (hs : SMM.new M (FP.finite v) = Except.ok s) :
    t.steps (List.replicate k v) = List.replicate k v ∧
    s.steps (List.replicate k v) = some (List.replicate k v) := by
  constructor
  · have hN := linreg_new_pos ht
    rw [linreg_steps_eq _ _ (linreg_new_inv ht), linreg_new_window ht,
      window_steps_replicate (by omega) v k, List.map_replicate]
    rw [show ((⟨List.replicate N v⟩ : Window)).buf = List.replicate N v from rfl,
      directIntercept_replicate hN v]
  · have hM := smm_new_ok_pos hs
    rw [smm_steps_eq _ _ (smm_new_inv hM hs), smm_new_window hs,
      window_steps_replicate hM v k, List.map_replicate]
    rw [show ((⟨List.replicate M v⟩ : Window)).buf = List.replicate M v from rfl,
      listMedian_replicate hM v]

theorem c8_constant_input_stability_witness :
    ((LinReg.new 2 (FP.finite 1)).toOption.getD default).steps (List.replicate 3 1)
        = List.replicate 3 1 ∧
      ((SMM.new 3 (FP.finite 1)).toOption.getD default).steps (List.replicate 3 1)
        = some (List.replicate 3 1) :=
  c8_constant_input_stability 2 3 3 1 ((LinReg.new 2 (FP.finite 1)).toOption.getD default)
    ((SMM.new 3 (FP.finite 1)).toOption.getD default) rfl rfl

/-- C9: `LinReg` performs no input-validity check: construction succeeds for
every first value — finite or not — exactly when the length is at least 2,
and the success of construction does not depend on the value at all (the
embedding of `LinReg::next` is a total function: the source has no assertion
and no fallible slice access). -/
theorem c9_linreg_no_input_check (N : ℕ) (v : FP) :
    ((LinReg.new N v).isOk = true ↔ 2 ≤ N) ∧
    (LinReg.new N v).isOk = (LinReg.new N FP.nan).isOk := by
  constructor
  · match N with
    | 0 => simp [LinReg.new, Except.isOk, Except.toBool]
    | 1 => simp [LinReg.new, Except.isOk, Except.toBool]
    | (n + 2) => simp [LinReg.new, Except.isOk, Except.toBool]
  · match N with
    | 0 => rfl
    | 1 => rfl
    | (n + 2) => rfl

/-- C10: `SMM::new` validates finiteness of the first value before the
length: every non-finite first value is rejected with `InvalidCandles`, even
at length 0 — so `SMM::new(0, NaN)` reports the InvalidInput kind, not
InvalidParameters. -/
theorem c10_smm_input_check_first (N : ℕ) (v : FP) (h : v.is_finite = false) :
    SMM.new N v = Except.error Error.InvalidCandles := by
  rw [SMM.new.eq_def, h]
  rfl

theorem c10_smm_input_check_first_witness :
    SMM.new 0 FP.nan = Except.error Error.InvalidCandles :=
  c10_smm_input_check_first 0 FP.nan rfl

end Yata
